import Mathlib

/-!
Verification of `gem_scams.py`, a Path of Exile gem-arbitrage calculator.

The Python source is shallowly embedded below. Design choices:
  * Python `float` prices and probabilities are modelled as `ℚ`.
  * Python `int` fields (`level`, `quality`, `count`, table weights) are `Int`.
  * Python dicts keyed by strings are modelled as association lists that keep
    insertion order (new keys are appended, updates keep the key's position),
    matching CPython dict iteration-order semantics.
  * `list.sort(key=..., reverse=True)` is a stable sort with respect to the
    reversed key comparison; it is modelled by `List.insertionSort` with that
    comparison, which is stable with respect to the same total preorder and
    therefore produces the identical output list.
  * Exceptions raised by the parser (`KeyError`/`AttributeError` for missing
    HTML structure, `ZeroDivisionError`) are modelled with `Except ParseError`.
  * `find_price` sorts the surviving listings ascending by `price_div` and
    returns the first element's `price_div`; this equals the fold-minimum of
    the surviving `price_div` values, which is how it is written here.
-/

namespace GemScams

/-- The fixed rare/excluded set `rare_gems` from the source. -/
def rare_gems : List String :=
  ["Empower Support", "Enlighten Support", "Enhance Support",
   "Elemental Penetration Support", "Block Chance Reduction Support", "Portal"]

/-- The `Gem` dataclass from the source. -/
structure Gem where
  name : String
  quality_type : String
  is_vaal : Bool
  is_corrupted : Bool
  level : Int
  quality : Int
  price_chaos : ℚ
  price_div : ℚ
  count : Int
deriving DecidableEq

/-- The filter conditions of the loop body of `find_price`: a listing survives
iff its name and quality type match, it is not corrupted, when `maxed` is set
its level and quality are at least 20, and its count is at least `min_amount`. -/
def eligible (g : Gem) (name quality_type : String) (maxed : Bool)
    (min_amount : Int) : Bool :=
  g.name == name && g.quality_type == quality_type && !g.is_corrupted
    && (!maxed || (decide (20 ≤ g.level) && decide (20 ≤ g.quality)))
    && decide (min_amount ≤ g.count)

/-- Minimum of a list of rationals, `0` for the empty list: this is the value
of `results.sort(key=lambda g: g.price_div); return results[0].price_div`
preceded by `if not results: return 0`. -/
def minimumPrice : List ℚ → ℚ
  | [] => 0
  | p :: ps => ps.foldl min p

/-- Embedding of `find_price`. -/
def find_price (prices : List Gem) (name quality_type : String)
    (maxed : Bool) (min_amount : Int) : ℚ :=
  minimumPrice ((prices.filter
    (fun g => eligible g name quality_type maxed min_amount)).map Gem.price_div)

/-- The breakdown list built by the inner loop of `find_best_options`:
`(chance, price, quality_type)` triples, one per distribution entry. -/
def gemProfits (prices : List Gem) (name : String)
    (chances : List (String × ℚ)) (maxed : Bool) (min_amount : Int) :
    List (ℚ × ℚ × String) :=
  chances.map (fun qc => (qc.2, find_price prices name qc.1 maxed min_amount, qc.1))

/-- Python's `name.endswith(suf)`: `suf` is a suffix of `name`, checked on the
character sequences. -/
def strEndsWith (name suf : String) : Bool :=
  suf.data.isSuffixOf name.data

/-- The total consumable cost computed by `find_best_options` for one item:
`secondary_regrading_lens` for names ending in " Support", otherwise
`primary_regrading_lens`; when `maxed`, the cheapest maxed Superior listing
with no supply floor is added. -/
def gemCost (prices : List Gem) (name : String) (maxed : Bool)
    (primary_regrading_lens secondary_regrading_lens : ℚ) : ℚ :=
  (if strEndsWith name " Support" then secondary_regrading_lens
   else primary_regrading_lens)
    + (if maxed then find_price prices name "Superior" true 0 else 0)

/-- The line `guaranteed = all(price > cost for _, price, _ in profits)`. -/
def isGuaranteed (profits : List (ℚ × ℚ × String)) (cost : ℚ) : Bool :=
  profits.all (fun t => decide (cost < t.2.1))

/-- The line `profit = sum(chance * price for chance, price, _ in profits) - cost`. -/
def expectedProfit (profits : List (ℚ × ℚ × String)) (cost : ℚ) : ℚ :=
  (profits.map (fun t => t.1 * t.2.1)).sum - cost

/-- One element of the `good` list of `find_best_options`:
the tuple `(name, guaranteed, profit, profits)`. -/
structure OptionEntry where
  name : String
  guaranteed : Bool
  profit : ℚ
  profits : List (ℚ × ℚ × String)
deriving DecidableEq

/-- The per-item body of the outer loop of `find_best_options`. -/
def evalOption (prices : List Gem) (maxed : Bool) (min_amount : Int)
    (primary_regrading_lens secondary_regrading_lens : ℚ)
    (name : String) (chances : List (String × ℚ)) : OptionEntry :=
  let profits := gemProfits prices name chances maxed min_amount
  let cost := gemCost prices name maxed primary_regrading_lens secondary_regrading_lens
  ⟨name, isGuaranteed profits cost, expectedProfit profits cost, profits⟩

/-- The outcome-distribution map `GemChances = Dict[str, Dict[str, float]]`,
as an insertion-ordered association list. -/
abbrev GemChances : Type := List (String × List (String × ℚ))

/-- The descending-profit comparison used by `good.sort(key=lambda i: i[2],
reverse=True)`. -/
def profitGe (a b : OptionEntry) : Prop := b.profit ≤ a.profit

instance : DecidableRel profitGe :=
  fun a b => inferInstanceAs (Decidable (b.profit ≤ a.profit))

instance : IsTotal OptionEntry profitGe := ⟨fun a b => le_total b.profit a.profit⟩

instance : IsTrans OptionEntry profitGe := ⟨fun _ _ _ h1 h2 => le_trans h2 h1⟩

/-- Embedding of `find_best_options`: build `good` by the loop over
`all_chances.items()` (skipping rare gems and applying the `guaranteed_only`
and `profit <= 0` filters), then stable-sort descending by profit. -/
def find_best_options (all_chances : GemChances) (prices : List Gem)
    (maxed guaranteed_only : Bool) (min_amount : Int)
    (primary_regrading_lens secondary_regrading_lens : ℚ) : List OptionEntry :=
  let good := all_chances.filterMap (fun nc =>
    if rare_gems.contains nc.1 then none
    else
      let e := evalOption prices maxed min_amount
        primary_regrading_lens secondary_regrading_lens nc.1 nc.2
      if guaranteed_only && !e.guaranteed then none
      else if e.profit ≤ 0 then none
      else some e)
  good.insertionSort profitGe

/-- The descending `price_chaos` comparison used by
`ok.sort(key=lambda g: g.price_chaos, reverse=True)`. -/
def chaosGe (a b : Gem) : Prop := b.price_chaos ≤ a.price_chaos

instance : DecidableRel chaosGe :=
  fun a b => inferInstanceAs (Decidable (b.price_chaos ≤ a.price_chaos))

instance : IsTotal Gem chaosGe := ⟨fun a b => le_total b.price_chaos a.price_chaos⟩

instance : IsTrans Gem chaosGe := ⟨fun _ _ _ h1 h2 => le_trans h2 h1⟩

/-- Embedding of `best_simple_gems`: the list of gems it prints, i.e. the
filtered catalog sorted descending by `price_chaos`, truncated to `count`. -/
def best_simple_gems (prices : List Gem) (count : Nat) (min_amount : Int) :
    List Gem :=
  let ok := prices.filter (fun g =>
    g.quality_type == "Superior" && !(rare_gems.contains g.name)
      && !g.is_corrupted && decide (20 ≤ g.quality) && decide (20 ≤ g.level)
      && decide (min_amount ≤ g.count))
  (ok.insertionSort chaosGe).take count

/-- The enumeration loop of `print_profits`:
`for n, item in enumerate(best): if n > count: break; ...render item...`,
returning the rendered items. -/
def renderLoop (count : Nat) : Nat → List OptionEntry → List OptionEntry
  | _, [] => []
  | n, x :: xs => if count < n then [] else x :: renderLoop count (n + 1) xs

/-- The list of entries `print_profits` renders: `find_best_options` output
passed through the truncating enumeration loop. -/
def print_profits_shown (all_chances : GemChances) (prices : List Gem)
    (maxed guaranteed_only : Bool) (min_count : Int) (count : Nat)
    (primary_regrading_lens secondary_regrading_lens : ℚ) : List OptionEntry :=
  renderLoop count 0 (find_best_options all_chances prices maxed guaranteed_only
    min_count primary_regrading_lens secondary_regrading_lens)

/-! ## The poedb HTML parser

One table row contributes `(cells[0].strip(), cells[1].strip(), int(cells[3]))`;
the whitespace stripping and integer parsing of the cell text are lxml/string
concerns and the row is modelled as that resulting triple.  The document
structure that `parse_poedb_gem_data` walks (`get_element_by_id`, `.//table`,
`./tbody`) is modelled by nested `Option`s; a missing layer raises in Python
(`KeyError` from `get_element_by_id`, `AttributeError` from calling `find` /
`iterfind` on `None`), modelled by `Except.error`. -/

/-- One `<tr>` of the quality table: name, quality label and weight. -/
structure HtmlRow where
  name : String
  quality : String
  weight : Int
deriving DecidableEq

/-- The `<table>` inside the anchor div, with an optional `<tbody>`. -/
structure HtmlTable where
  tbody : Option (List HtmlRow)

/-- The element with id `UnusualGemsQuality`, with an optional inner table. -/
structure HtmlAnchor where
  table : Option HtmlTable

/-- A reference document: optionally contains the anchor element. -/
structure HtmlDoc where
  unusualGemsQuality : Option HtmlAnchor

/-- The exceptions `parse_poedb_gem_data` can raise. -/
inductive ParseError
  | anchorMissing
  | tableMissing
  | tbodyMissing
  | divisionByZero
deriving DecidableEq

/-- Python-dict lookup on an association list. -/
def alGet {α : Type} : List (String × α) → String → Option α
  | [], _ => none
  | p :: l, k => if p.1 = k then some p.2 else alGet l k

/-- Python-dict assignment on an association list: an existing key keeps its
position and gets the new value, a new key is appended at the end, matching
CPython dict insertion-order semantics. -/
def alSet {α : Type} : List (String × α) → String → α → List (String × α)
  | [], k, v => [(k, v)]
  | p :: l, k, v => if p.1 = k then (k, v) :: l else p :: alSet l k v

/-- The `defaultdict(int)` accumulation `gem_sums[name] += weight`. -/
def alAdd (l : List (String × Int)) (k : String) (v : Int) :
    List (String × Int) :=
  alSet l k (((alGet l k).getD 0) + v)

/-- The loop state of `parse_poedb_gem_data`: `(gem_sums, gem_weights)`. -/
abbrev WeightState : Type :=
  List (String × Int) × List (String × List (String × Int))

/-- The body of `for row in body.iterfind(".//tr")`: non-"Superior" rows add
their weight to `gem_sums[name]` and set `gem_weights[name][quality]`. -/
def stepRow (acc : WeightState) (r : HtmlRow) : WeightState :=
  if r.quality != "Superior" then
    (alAdd acc.1 r.name r.weight,
     alSet acc.2 r.name (alSet ((alGet acc.2 r.name).getD []) r.quality r.weight))
  else acc

/-- The row loop of `parse_poedb_gem_data`, left to right. -/
def accumRows (rows : List HtmlRow) (acc : WeightState) : WeightState :=
  match rows with
  | [] => acc
  | r :: rs => accumRows rs (stepRow acc r)

/-- One division `weight / gem_sums[name]`; a zero total raises
`ZeroDivisionError`. -/
def divWeight (total : Int) (qw : String × Int) : Except ParseError (String × ℚ) :=
  if total = 0 then .error .divisionByZero
  else .ok (qw.1, (qw.2 : ℚ) / (total : ℚ))

/-- The emission loop `for name, weights in gem_weights.items(): ...` building
`gem_chances[name][quality] = weight / gem_sums[name]`. -/
def emitChances (sums : List (String × Int)) :
    List (String × List (String × Int)) → Except ParseError GemChances
  | [] => .ok []
  | (name, ws) :: rest =>
    match ws.mapM (divWeight ((alGet sums name).getD 0)) with
    | .error e => .error e
    | .ok dist =>
      match emitChances sums rest with
      | .error e => .error e
      | .ok cs => .ok ((name, dist) :: cs)

/-- Embedding of `parse_poedb_gem_data`. -/
def parse_poedb_gem_data (doc : HtmlDoc) : Except ParseError GemChances :=
  match doc.unusualGemsQuality with
  | none => .error .anchorMissing
  | some div =>
    match div.table with
    | none => .error .tableMissing
    | some table =>
      match table.tbody with
      | none => .error .tbodyMissing
      | some rows =>
        let st := accumRows rows ([], [])
        emitChances st.1 st.2

/-- The non-default ("Superior") rows of one item, in document order. -/
def itemRows (rows : List HtmlRow) (name : String) : List HtmlRow :=
  rows.filter (fun r => r.name == name && r.quality != "Superior")

/-- The row list the parser walks, when the whole anchor/table/tbody chain is
present in the document. -/
def docRows (doc : HtmlDoc) : Option (List HtmlRow) :=
  match doc.unusualGemsQuality with
  | none => none
  | some div =>
    match div.table with
    | none => none
    | some table => table.tbody

/-! ## Concrete fixtures used by examples and witnesses -/

/-- An eligible "Anomalous Fireball" listing priced 10 div with supply 50. -/
def anomFireball : Gem := ⟨"Fireball", "Anomalous", false, false, 1, 0, 0, 10, 50⟩

/-- An eligible "Divergent Fireball" listing priced 2 div with supply 50. -/
def divFireball : Gem := ⟨"Fireball", "Divergent", false, false, 1, 0, 0, 2, 50⟩

/-- The two-listing catalog of the end-to-end example. -/
def fireCat : List Gem := [anomFireball, divFireball]

/-- The end-to-end example distribution: "Fireball" rerolls to "Anomalous" or
"Divergent" with probability 1/2 each. -/
def fireDist : GemChances :=
  [("Fireball", [("Anomalous", 1/2), ("Divergent", 1/2)])]

/-- The entry `find_best_options` produces on the end-to-end example. -/
def fireEntry : OptionEntry :=
  ⟨"Fireball", true, 5, [(1/2, 10, "Anomalous"), (1/2, 2, "Divergent")]⟩

/-- On the end-to-end example the engine returns exactly the Fireball entry
with expected profit `0.5 * 10 + 0.5 * 2 - 1 = 5` and `guaranteed = true`. -/
lemma fireOutput :
    find_best_options fireDist fireCat false false 10 1 1 = [fireEntry] := by
  have h1 : find_price fireCat "Fireball" "Anomalous" false 10 = 10 := by rfl
  have h2 : find_price fireCat "Fireball" "Divergent" false 10 = 2 := by rfl
  simp [find_best_options, evalOption, gemProfits, gemCost, strEndsWith,
    isGuaranteed, expectedProfit, h1, h2, rare_gems, fireDist, fireEntry]
  norm_num

/-! ## Minimum lemmas for `find_price` -/

lemma foldl_min_le_init (l : List ℚ) (a : ℚ) : l.foldl min a ≤ a := by
  induction l generalizing a with
  | nil => exact le_refl a
  | cons x xs ih => exact le_trans (ih (min a x)) (min_le_left a x)

lemma foldl_min_le_mem (l : List ℚ) : ∀ (a x : ℚ), x ∈ l → l.foldl min a ≤ x := by
  induction l with
  | nil => intro a x hx; cases hx
  | cons y ys ih =>
    intro a x hx
    rcases List.mem_cons.mp hx with h | h
    · subst h
      exact le_trans (foldl_min_le_init ys (min a x)) (min_le_right a x)
    · exact ih (min a y) x h

lemma foldl_min_mem (l : List ℚ) : ∀ a : ℚ, l.foldl min a = a ∨ l.foldl min a ∈ l := by
  induction l with
  | nil => intro a; left; rfl
  | cons y ys ih =>
    intro a
    rw [List.foldl_cons]
    rcases ih (min a y) with h | h
    · rcases min_choice a y with h1 | h1
      · left; rw [h, h1]
      · right; rw [h, h1]; exact List.mem_cons_self y ys
    · right; exact List.mem_cons_of_mem y h

lemma minimumPrice_mem : ∀ l : List ℚ, l ≠ [] → minimumPrice l ∈ l := by
  intro l hl
  match l with
  | [] => exact absurd rfl hl
  | p :: ps =>
    show minimumPrice (p :: ps) ∈ p :: ps
    rcases foldl_min_mem ps p with h | h
    · rw [minimumPrice, h]; exact List.mem_cons_self p ps
    · rw [minimumPrice]; exact List.mem_cons_of_mem p h

lemma minimumPrice_le : ∀ (l : List ℚ) (x : ℚ), x ∈ l → minimumPrice l ≤ x := by
  intro l x hx
  match l with
  | [] => cases hx
  | p :: ps =>
    rcases List.mem_cons.mp hx with h | h
    · subst h; exact foldl_min_le_init ps x
    · exact foldl_min_le_mem ps p x h

/-- Unfolding of the Boolean filter `eligible` into its conditions. -/
lemma eligible_iff {g : Gem} {name quality_type : String} {maxed : Bool}
    {min_amount : Int} :
    eligible g name quality_type maxed min_amount = true ↔
      g.name = name ∧ g.quality_type = quality_type ∧ g.is_corrupted = false
      ∧ (maxed = true → 20 ≤ g.level ∧ 20 ≤ g.quality)
      ∧ min_amount ≤ g.count := by
  cases maxed <;> simp [eligible] <;> tauto

/-- C3: `find_price` returns `0` when no listing survives the filters, and
otherwise returns the `price_div` of a surviving listing (matching name and
quality type, not corrupted, supply at least `min_amount`, and level and
quality at least 20 when `maxed`) that is minimal among all surviving
listings. -/
theorem find_price_minimal (prices : List Gem) (name quality_type : String)
    (maxed : Bool) (min_amount : Int) :
    (prices.filter (fun g => eligible g name quality_type maxed min_amount) = [] →
      find_price prices name quality_type maxed min_amount = 0)
    ∧ (prices.filter (fun g => eligible g name quality_type maxed min_amount) ≠ [] →
      ∃ g ∈ prices,
        eligible g name quality_type maxed min_amount = true
        ∧ g.name = name ∧ g.quality_type = quality_type
        ∧ g.is_corrupted = false
        ∧ min_amount ≤ g.count
        ∧ (maxed = true → 20 ≤ g.level ∧ 20 ≤ g.quality)
        ∧ find_price prices name quality_type maxed min_amount = g.price_div)
    ∧ (∀ g ∈ prices, eligible g name quality_type maxed min_amount = true →
        find_price prices name quality_type maxed min_amount ≤ g.price_div) := by
  refine ⟨?_, ?_, ?_⟩
  · intro h
    rw [find_price, h]
    rfl
  · intro h
    have hne : (prices.filter
        (fun g => eligible g name quality_type maxed min_amount)).map Gem.price_div ≠ [] := by
      simpa using h
    have hmem := minimumPrice_mem _ hne
    rcases List.mem_map.mp hmem with ⟨g, hg, hgp⟩
    have hg' := List.mem_filter.mp hg
    obtain ⟨h1, h2, h3, h4, h5⟩ := eligible_iff.mp hg'.2
    exact ⟨g, hg'.1, hg'.2, h1, h2, h3, h5, h4, hgp.symm⟩
  · intro g hg he
    have : g.price_div ∈ (prices.filter
        (fun g => eligible g name quality_type maxed min_amount)).map Gem.price_div :=
      List.mem_map.mpr ⟨g, List.mem_filter.mpr ⟨hg, he⟩, rfl⟩
    exact minimumPrice_le _ _ this

/-- Witness for C3 on the concrete example catalog: the nonempty branch at
("Fireball", "Anomalous") produces an eligible listing of minimal price. -/
theorem find_price_minimal_witness :
    ∃ g ∈ fireCat,
      eligible g "Fireball" "Anomalous" false 10 = true
      ∧ g.name = "Fireball" ∧ g.quality_type = "Anomalous"
      ∧ g.is_corrupted = false
      ∧ (10 : Int) ≤ g.count
      ∧ (false = true → 20 ≤ g.level ∧ 20 ≤ g.quality)
      ∧ find_price fireCat "Fireball" "Anomalous" false 10 = g.price_div :=
  (find_price_minimal fireCat "Fireball" "Anomalous" false 10).2.1 (by decide)

/-- C1: for every item, the expected profit computed by the engine equals the
probability-weighted sum of `find_price` over that item's distribution entries
minus the total cost, where the cost is the secondary lens for names ending in
" Support" and the primary lens otherwise, plus (when `maxed`) the price of
the item's own maxed "Superior" listing with no supply floor; on the concrete
Fireball example the expected profit is 5 and the entry is guaranteed. -/
theorem expected_profit_formula :
    (∀ (prices : List Gem) (name : String) (chances : List (String × ℚ))
        (maxed : Bool) (min_amount : Int) (primary secondary : ℚ),
      (evalOption prices maxed min_amount primary secondary name chances).profit
        = (chances.map
            (fun qc => qc.2 * find_price prices name qc.1 maxed min_amount)).sum
          - ((if strEndsWith name " Support" then secondary else primary)
             + (if maxed then find_price prices name "Superior" true 0 else 0)))
    ∧ find_best_options fireDist fireCat false false 10 1 1
        = [⟨"Fireball", true, 5, [(1/2, 10, "Anomalous"), (1/2, 2, "Divergent")]⟩] := by
  constructor
  · intro prices name chances maxed min_amount primary secondary
    simp only [evalOption, expectedProfit, gemProfits, gemCost, List.map_map]
    rfl
  · rw [fireOutput]
    rfl

/-- C2: in the engine, an item's guaranteed flag is true iff every breakdown
entry's price is strictly greater than the item's total cost; in particular
any breakdown entry priced at or below the cost forces `guaranteed = false`. -/
theorem guaranteed_iff_all_above_cost :
    (∀ (prices : List Gem) (maxed : Bool) (min_amount : Int)
        (primary secondary : ℚ) (name : String) (chances : List (String × ℚ)),
      ((evalOption prices maxed min_amount primary secondary name chances).guaranteed
          = true
        ↔ ∀ t ∈ gemProfits prices name chances maxed min_amount,
            gemCost prices name maxed primary secondary < t.2.1))
    ∧ (∀ (prices : List Gem) (maxed : Bool) (min_amount : Int)
        (primary secondary : ℚ) (name : String) (chances : List (String × ℚ))
        (t : ℚ × ℚ × String),
        t ∈ gemProfits prices name chances maxed min_amount →
        t.2.1 ≤ gemCost prices name maxed primary secondary →
        (evalOption prices maxed min_amount primary secondary name chances).guaranteed
          = false) := by
  have key : ∀ (prices : List Gem) (maxed : Bool) (min_amount : Int)
      (primary secondary : ℚ) (name : String) (chances : List (String × ℚ)),
      ((evalOption prices maxed min_amount primary secondary name chances).guaranteed
          = true
        ↔ ∀ t ∈ gemProfits prices name chances maxed min_amount,
            gemCost prices name maxed primary secondary < t.2.1) := by
    intro prices maxed min_amount primary secondary name chances
    simp [evalOption, isGuaranteed]
  refine ⟨key, ?_⟩
  intro prices maxed min_amount primary secondary name chances t ht hle
  rcases hb : (evalOption prices maxed min_amount primary secondary
      name chances).guaranteed with _ | _
  · rfl
  · exact absurd ((key prices maxed min_amount primary secondary
      name chances).mp hb t ht) (not_lt.mpr hle)

/-- Witness for C2: the support-item example of the spec, name
"Example Support" with secondary cost 3/5 and a single unpriceable variant
(price 0 on an empty catalog), is not guaranteed. -/
theorem guaranteed_iff_all_above_cost_witness :
    (evalOption [] false 10 1 (3/5) "Example Support" [("Anomalous", 1)]).guaranteed
      = false := by
  have hsuffix : strEndsWith "Example Support" " Support" = true := by decide
  have hmem : ((1 : ℚ), (0 : ℚ), "Anomalous")
      ∈ gemProfits [] "Example Support" [("Anomalous", 1)] false 10 := by
    simp [gemProfits, find_price, minimumPrice]
  have hle : ((1 : ℚ), (0 : ℚ), "Anomalous").2.1
      ≤ gemCost [] "Example Support" false 1 (3/5) := by
    simp [gemCost, hsuffix]
    norm_num
  exact guaranteed_iff_all_above_cost.2 [] false 10 1 (3/5) "Example Support"
    [("Anomalous", 1)] (1, 0, "Anomalous") hmem hle

/-- Inversion for membership in the engine output: an entry is returned iff it
is the evaluation of some distribution entry whose name passes the rare-set
filter and which passes the guaranteed and positive-profit filters. -/
lemma mem_find_best_options {ac : GemChances} {prices : List Gem}
    {maxed go : Bool} {min_amount : Int} {p s : ℚ} {e : OptionEntry} :
    e ∈ find_best_options ac prices maxed go min_amount p s ↔
      ∃ nc ∈ ac, rare_gems.contains nc.1 = false
        ∧ e = evalOption prices maxed min_amount p s nc.1 nc.2
        ∧ (go = true → e.guaranteed = true)
        ∧ 0 < e.profit := by
  rw [find_best_options, List.mem_insertionSort, List.mem_filterMap]
  constructor
  · rintro ⟨nc, hnc, hsome⟩
    refine ⟨nc, hnc, ?_⟩
    by_cases h1 : rare_gems.contains nc.1 = true
    · rw [if_pos h1] at hsome; cases hsome
    · rw [if_neg h1] at hsome
      by_cases h2 : (go && !(evalOption prices maxed min_amount p s nc.1 nc.2).guaranteed)
          = true
      · rw [if_pos h2] at hsome; cases hsome
      · rw [if_neg h2] at hsome
        by_cases h3 : (evalOption prices maxed min_amount p s nc.1 nc.2).profit ≤ 0
        · rw [if_pos h3] at hsome; cases hsome
        · rw [if_neg h3] at hsome
          cases hsome
          refine ⟨Bool.not_eq_true _ ▸ h1, rfl, ?_, lt_of_not_le h3⟩
          intro hgo
          rcases hg : (evalOption prices maxed min_amount p s nc.1 nc.2).guaranteed
            with _ | _
          · exact absurd (by rw [hgo, hg]; rfl) h2
          · rfl
  · rintro ⟨nc, hnc, h1, he, hgo, hpos⟩
    refine ⟨nc, hnc, ?_⟩
    rw [if_neg (by rw [h1]; exact Bool.false_ne_true)]
    have h2 : (go && !(evalOption prices maxed min_amount p s nc.1 nc.2).guaranteed)
        = false := by
      cases go with
      | false => rfl
      | true => rw [← he, hgo rfl]; rfl
    rw [if_neg (by rw [h2]; exact Bool.false_ne_true),
      if_neg (not_le.mpr (he ▸ hpos)), ← he]

/-- C5: every returned entry has strictly positive expected profit and a name
outside the rare/excluded set, with `guaranteed_only` every returned entry is
guaranteed, and the output is pairwise non-increasing in expected profit (a
stable permutation of the filtered list). -/
theorem find_best_options_ranked (ac : GemChances) (prices : List Gem)
    (maxed go : Bool) (min_amount : Int) (p s : ℚ) :
    (∀ e ∈ find_best_options ac prices maxed go min_amount p s,
      0 < e.profit ∧ rare_gems.contains e.name = false
        ∧ (go = true → e.guaranteed = true))
    ∧ (find_best_options ac prices maxed go min_amount p s).Pairwise
        (fun a b => b.profit ≤ a.profit) := by
  constructor
  · intro e he
    rcases mem_find_best_options.mp he with ⟨nc, _, h1, heq, hgo, hpos⟩
    refine ⟨hpos, ?_, hgo⟩
    have hname : e.name = nc.1 := by rw [heq]; rfl
    rw [hname]; exact h1
  · rw [find_best_options]
    exact List.sorted_insertionSort profitGe _

/-- Witness for C5 at the concrete example: the returned Fireball entry has
positive profit, a non-rare name, and the vacuous guaranteed-only property. -/
theorem find_best_options_ranked_witness :
    0 < fireEntry.profit ∧ rare_gems.contains fireEntry.name = false
      ∧ (false = true → fireEntry.guaranteed = true) :=
  (find_best_options_ranked fireDist fireCat false false 10 1 1).1 fireEntry
    (by rw [fireOutput]; exact List.mem_singleton_self fireEntry)

/-- Over a list of breakdown triples whose first components are non-negative
and whose prices all strictly exceed `cost`, the weighted price sum is at
least `cost` times the weight sum, strictly when the weight sum is positive. -/
lemma sum_mul_bounds (cost : ℚ) :
    ∀ l : List (ℚ × ℚ × String),
      (∀ t ∈ l, 0 ≤ t.1 ∧ cost < t.2.1) →
      cost * (l.map (fun t => t.1)).sum ≤ (l.map (fun t => t.1 * t.2.1)).sum
      ∧ (0 < (l.map (fun t => t.1)).sum →
         cost * (l.map (fun t => t.1)).sum < (l.map (fun t => t.1 * t.2.1)).sum) := by
  intro l
  induction l with
  | nil =>
    intro _
    refine ⟨by simp, ?_⟩
    intro h
    simp at h
  | cons t ts ih =>
    intro h
    obtain ⟨hc, hp⟩ := h t (List.mem_cons_self t ts)
    obtain ⟨ihw, ihs⟩ := ih (fun x hx => h x (List.mem_cons_of_mem t hx))
    constructor
    · simp only [List.map_cons, List.sum_cons, mul_add]
      have h1 : cost * t.1 ≤ t.1 * t.2.1 := by nlinarith
      linarith
    · intro hpos
      simp only [List.map_cons, List.sum_cons] at hpos ⊢
      rcases lt_or_eq_of_le hc with h0 | h0
      · have h1 : cost * t.1 < t.1 * t.2.1 := by nlinarith
        rw [mul_add]
        linarith
      · have ht : t.1 = 0 := h0.symm
        have hpos' : 0 < (ts.map (fun t => t.1)).sum := by
          rw [ht, zero_add] at hpos; exact hpos
        have hst := ihs hpos'
        rw [ht]
        simp only [zero_add, zero_mul, mul_add, mul_zero]
        linarith

/-- C10: (a) for an item whose distribution has non-negative probabilities
summing to 1, `guaranteed = true` forces strictly positive expected profit, so
a guaranteed item is never dropped by the `profit <= 0` filter; (b) every
entry returned with `guaranteed_only = true` is also returned with
`guaranteed_only = false`. -/
theorem guaranteed_implies_positive_profit :
    (∀ (prices : List Gem) (maxed : Bool) (min_amount : Int)
        (p s : ℚ) (name : String) (chances : List (String × ℚ)),
      (∀ qc ∈ chances, 0 ≤ qc.2) →
      (chances.map (fun qc => qc.2)).sum = 1 →
      (evalOption prices maxed min_amount p s name chances).guaranteed = true →
      0 < (evalOption prices maxed min_amount p s name chances).profit)
    ∧ ∀ (ac : GemChances) (prices : List Gem) (maxed : Bool) (min_amount : Int)
        (p s : ℚ) (e : OptionEntry),
        e ∈ find_best_options ac prices maxed true min_amount p s →
        e ∈ find_best_options ac prices maxed false min_amount p s := by
  constructor
  · intro prices maxed min_amount p s name chances hnn hsum hg
    have hgu : ∀ t ∈ gemProfits prices name chances maxed min_amount,
        gemCost prices name maxed p s < t.2.1 := by
      simpa [evalOption, isGuaranteed] using hg
    have hall : ∀ t ∈ gemProfits prices name chances maxed min_amount,
        0 ≤ t.1 ∧ gemCost prices name maxed p s < t.2.1 := by
      intro t ht
      refine ⟨?_, hgu t ht⟩
      rcases List.mem_map.mp ht with ⟨qc, hqc, hqt⟩
      rw [← hqt]
      exact hnn qc hqc
    have hsum' : ((gemProfits prices name chances maxed min_amount).map
        (fun t => t.1)).sum = 1 := by
      rw [gemProfits, List.map_map]
      exact hsum
    have hkey := (sum_mul_bounds (gemCost prices name maxed p s) _ hall).2
      (by rw [hsum']; norm_num)
    rw [hsum', mul_one] at hkey
    show 0 < expectedProfit (gemProfits prices name chances maxed min_amount)
      (gemCost prices name maxed p s)
    rw [expectedProfit]
    linarith
  · intro ac prices maxed min_amount p s e he
    rcases mem_find_best_options.mp he with ⟨nc, hnc, h1, heq, _, hpos⟩
    exact mem_find_best_options.mpr
      ⟨nc, hnc, h1, heq, fun h => absurd h Bool.false_ne_true, hpos⟩

/-- Witness for C10 at the concrete example: the Fireball distribution is
non-negative and sums to 1, its entry is guaranteed, and its profit is
strictly positive. -/
theorem guaranteed_implies_positive_profit_witness :
    0 < (evalOption fireCat false 10 1 1 "Fireball"
      [("Anomalous", 1/2), ("Divergent", 1/2)]).profit := by
  have h1 : find_price fireCat "Fireball" "Anomalous" false 10 = 10 := by rfl
  have h2 : find_price fireCat "Fireball" "Divergent" false 10 = 2 := by rfl
  have hsuffix : strEndsWith "Fireball" " Support" = false := by decide
  refine guaranteed_implies_positive_profit.1 fireCat false 10 1 1 "Fireball"
    [("Anomalous", 1/2), ("Divergent", 1/2)] ?_ ?_ ?_
  · intro qc hqc
    rcases List.mem_cons.mp hqc with h | h
    · rw [h]; norm_num
    · rcases List.mem_cons.mp h with h' | h'
      · rw [h']; norm_num
      · cases h'
  · norm_num
  · simp [evalOption, isGuaranteed, gemProfits, gemCost, hsuffix, h1, h2]

/-- C8: the leveling shortlist contains only non-corrupted "Superior" listings
with level and quality at least 20, supply at least `min_amount`, and names
outside the rare/excluded set; it is pairwise non-increasing in `price_chaos`
and has at most `count` elements. -/
theorem best_simple_gems_spec (prices : List Gem) (count : Nat)
    (min_amount : Int) :
    (∀ g ∈ best_simple_gems prices count min_amount,
      g.quality_type = "Superior" ∧ rare_gems.contains g.name = false
        ∧ g.is_corrupted = false ∧ 20 ≤ g.level ∧ 20 ≤ g.quality
        ∧ min_amount ≤ g.count)
    ∧ (best_simple_gems prices count min_amount).Pairwise
        (fun a b => b.price_chaos ≤ a.price_chaos)
    ∧ (best_simple_gems prices count min_amount).length ≤ count := by
  refine ⟨?_, ?_, ?_⟩
  · intro g hg
    rw [best_simple_gems] at hg
    have hg1 := List.mem_of_mem_take hg
    rw [List.mem_insertionSort] at hg1
    have hg2 := List.mem_filter.mp hg1
    have hcond := hg2.2
    simp only [Bool.and_eq_true, beq_iff_eq, Bool.not_eq_true',
      decide_eq_true_eq] at hcond
    tauto
  · rw [best_simple_gems]
    exact List.Pairwise.sublist (List.take_sublist _ _)
      (List.sorted_insertionSort chaosGe _)
  · rw [best_simple_gems]
    rw [List.length_take]
    exact min_le_left _ _

/-- A maxed, liquid, non-corrupted Superior listing used as a witness input. -/
def maxedArc : Gem := ⟨"Arc", "Superior", false, false, 20, 20, 100, 1, 50⟩

/-- Witness for C8: the single maxed Superior listing passes every filter of
the shortlist. -/
theorem best_simple_gems_spec_witness :
    maxedArc.quality_type = "Superior" ∧ rare_gems.contains maxedArc.name = false
      ∧ maxedArc.is_corrupted = false ∧ 20 ≤ maxedArc.level
      ∧ 20 ≤ maxedArc.quality ∧ (10 : Int) ≤ maxedArc.count :=
  (best_simple_gems_spec [maxedArc] 5 10).1 maxedArc (by decide)

/-- The enumeration loop of `print_profits` takes the first
`count + 1 - n` elements when started at index `n`. -/
lemma renderLoop_eq_take (count : Nat) :
    ∀ (l : List OptionEntry) (n : Nat),
      renderLoop count n l = l.take (count + 1 - n) := by
  intro l
  induction l with
  | nil => intro n; simp [renderLoop]
  | cons x xs ih =>
    intro n
    rw [renderLoop]
    by_cases h : count < n
    · rw [if_pos h]
      have h0 : count + 1 - n = 0 := by omega
      rw [h0, List.take_zero]
    · rw [if_neg h, ih (n + 1)]
      have h1 : count + 1 - n = (count - n) + 1 := by omega
      have h2 : count + 1 - (n + 1) = count - n := by omega
      rw [h1, h2, List.take_succ_cons]

/-- C9: `print_profits` renders the ranked list truncated with the inclusive
bound `n > count`: it shows the first `count + 1` entries, hence exactly
`count + 1` entries whenever the ranked list is longer than `count + 1`. -/
theorem print_profits_truncation (ac : GemChances) (prices : List Gem)
    (maxed go : Bool) (min_count : Int) (count : Nat) (p s : ℚ) :
    print_profits_shown ac prices maxed go min_count count p s
      = (find_best_options ac prices maxed go min_count p s).take (count + 1)
    ∧ (count + 1 < (find_best_options ac prices maxed go min_count p s).length →
        (print_profits_shown ac prices maxed go min_count count p s).length
          = count + 1) := by
  have h := renderLoop_eq_take count
    (find_best_options ac prices maxed go min_count p s) 0
  rw [Nat.sub_zero] at h
  constructor
  · rw [print_profits_shown, h]
  · intro hlen
    rw [print_profits_shown, h, List.length_take]
    omega

/-- An eligible "Anomalous Arc" listing priced 3 div with supply 50. -/
def anomArc : Gem := ⟨"Arc", "Anomalous", false, false, 1, 0, 0, 3, 50⟩

/-- A three-listing catalog producing two profitable items. -/
def bigCat : List Gem := [anomFireball, divFireball, anomArc]

/-- A distribution over two items, both profitable. -/
def bigDist : GemChances :=
  [("Fireball", [("Anomalous", 1/2), ("Divergent", 1/2)]),
   ("Arc", [("Anomalous", 1)])]

/-- The entry the engine produces for "Arc" on `bigCat`. -/
def arcEntry : OptionEntry := ⟨"Arc", true, 2, [(1, 3, "Anomalous")]⟩

/-- On the two-item example the engine returns both entries ranked by
profit. -/
lemma bigOutput :
    find_best_options bigDist bigCat false false 10 1 1 = [fireEntry, arcEntry] := by
  have h1 : find_price bigCat "Fireball" "Anomalous" false 10 = 10 := by rfl
  have h2 : find_price bigCat "Fireball" "Divergent" false 10 = 2 := by rfl
  have h3 : find_price bigCat "Arc" "Anomalous" false 10 = 3 := by rfl
  simp [find_best_options, evalOption, gemProfits, gemCost, strEndsWith,
    isGuaranteed, expectedProfit, h1, h2, h3, rare_gems, bigDist, fireEntry,
    arcEntry, List.insertionSort, List.orderedInsert, profitGe]
  norm_num

/-- Witness for C9: with `count = 0` and a two-entry ranked list, exactly one
entry is rendered. -/
theorem print_profits_truncation_witness :
    (print_profits_shown bigDist bigCat false false 10 0 1 1).length = 0 + 1 :=
  (print_profits_truncation bigDist bigCat false false 10 0 1 1).2
    (by rw [bigOutput]; norm_num)

/-- C7: a document missing the anchor element, the table inside it, or the
table body makes `parse_poedb_gem_data` raise a document-format error: it
returns `Except.error`, never an empty distribution. -/
theorem parse_malformed_errors (doc : HtmlDoc) (h : docRows doc = none) :
    ∃ e : ParseError, parse_poedb_gem_data doc = .error e
      ∧ (e = .anchorMissing ∨ e = .tableMissing ∨ e = .tbodyMissing) := by
  match doc with
  | ⟨none⟩ => exact ⟨.anchorMissing, rfl, Or.inl rfl⟩
  | ⟨some ⟨none⟩⟩ => exact ⟨.tableMissing, rfl, Or.inr (Or.inl rfl)⟩
  | ⟨some ⟨some ⟨none⟩⟩⟩ => exact ⟨.tbodyMissing, rfl, Or.inr (Or.inr rfl)⟩
  | ⟨some ⟨some ⟨some rows⟩⟩⟩ => simp [docRows] at h

/-- Witness for C7: the document with no anchor element errors out. -/
theorem parse_malformed_errors_witness :
    ∃ e : ParseError, parse_poedb_gem_data ⟨none⟩ = .error e
      ∧ (e = .anchorMissing ∨ e = .tableMissing ∨ e = .tbodyMissing) :=
  parse_malformed_errors ⟨none⟩ rfl

/-! ## Association-list lemmas for the parser state -/

/-- The key list of an association list. -/
def alKeys {α : Type} (l : List (String × α)) : List String :=
  l.map (fun p => p.1)

lemma alGet_alSet_self {α : Type} (l : List (String × α)) (k : String) (v : α) :
    alGet (alSet l k v) k = some v := by
  induction l with
  | nil => simp [alSet, alGet]
  | cons p l ih =>
    by_cases h : p.1 = k
    · simp [alSet, h, alGet]
    · simp [alSet, h, alGet, ih]

lemma alGet_alSet_ne {α : Type} (l : List (String × α)) (k k' : String) (v : α)
    (h : k ≠ k') : alGet (alSet l k v) k' = alGet l k' := by
  induction l with
  | nil => simp [alSet, alGet, h]
  | cons p l ih =>
    by_cases hp : p.1 = k
    · have hp' : ¬ p.1 = k' := by rw [hp]; exact h
      rw [alSet, if_pos hp, alGet, if_neg h, alGet, if_neg hp']
    · rw [alSet, if_neg hp, alGet, alGet]
      by_cases hp' : p.1 = k'
      · rw [if_pos hp', if_pos hp']
      · rw [if_neg hp', if_neg hp', ih]

lemma alGet_alAdd_self (l : List (String × Int)) (k : String) (v : Int) :
    alGet (alAdd l k v) k = some ((alGet l k).getD 0 + v) :=
  alGet_alSet_self l k _

lemma alGet_alAdd_ne (l : List (String × Int)) (k k' : String) (v : Int)
    (h : k ≠ k') : alGet (alAdd l k v) k' = alGet l k' :=
  alGet_alSet_ne l k k' _ h

lemma alGet_eq_none_iff {α : Type} (l : List (String × α)) (k : String) :
    alGet l k = none ↔ ∀ p ∈ l, p.1 ≠ k := by
  induction l with
  | nil => simp [alGet]
  | cons p l ih =>
    by_cases hp : p.1 = k
    · simp [alGet, hp]
    · simp [alGet, hp, ih]

lemma alSet_of_alGet_none {α : Type} (l : List (String × α)) (k : String)
    (v : α) (h : alGet l k = none) : alSet l k v = l ++ [(k, v)] := by
  induction l with
  | nil => rfl
  | cons p l ih =>
    have hp : ¬ p.1 = k := by
      intro he
      rw [alGet, if_pos he] at h
      cases h
    rw [alGet, if_neg hp] at h
    rw [alSet, if_neg hp, ih h]
    rfl

lemma alGet_append_of_none {α : Type} (l₁ l₂ : List (String × α)) (k : String)
    (h : alGet l₁ k = none) : alGet (l₁ ++ l₂) k = alGet l₂ k := by
  induction l₁ with
  | nil => rfl
  | cons p l ih =>
    have hp : ¬ p.1 = k := by
      intro he
      rw [alGet, if_pos he] at h
      cases h
    rw [alGet, if_neg hp] at h
    rw [List.cons_append, alGet, if_neg hp, ih h]

lemma mem_alKeys_alSet {α : Type} (l : List (String × α)) (k : String) (v : α)
    (x : String) : x ∈ alKeys (alSet l k v) ↔ x ∈ alKeys l ∨ x = k := by
  induction l with
  | nil => simp [alSet, alKeys]
  | cons p l ih =>
    simp only [alKeys] at ih ⊢
    by_cases hp : p.1 = k
    · rw [alSet, if_pos hp]
      simp only [List.map_cons, List.mem_cons, hp]
      tauto
    · rw [alSet, if_neg hp]
      simp only [List.map_cons, List.mem_cons]
      rw [ih]
      tauto

lemma alKeys_alSet_nodup {α : Type} (l : List (String × α)) (k : String)
    (v : α) (h : (alKeys l).Nodup) : (alKeys (alSet l k v)).Nodup := by
  induction l with
  | nil => simp [alSet, alKeys]
  | cons p l ih =>
    rw [alKeys, List.map_cons, List.nodup_cons] at h
    by_cases hp : p.1 = k
    · rw [alSet, if_pos hp, alKeys, List.map_cons, List.nodup_cons]
      exact ⟨hp ▸ h.1, h.2⟩
    · rw [alSet, if_neg hp, alKeys, List.map_cons, List.nodup_cons]
      refine ⟨?_, ih h.2⟩
      intro hmem
      rcases (mem_alKeys_alSet l k v p.1).mp hmem with hm | hm
      · exact h.1 hm
      · exact hp hm

lemma alGet_of_mem_nodup {α : Type} (l : List (String × α)) (k : String)
    (v : α) (hmem : (k, v) ∈ l) (hnd : (alKeys l).Nodup) :
    alGet l k = some v := by
  induction l with
  | nil => cases hmem
  | cons p l ih =>
    rw [alKeys, List.map_cons, List.nodup_cons] at hnd
    rcases List.mem_cons.mp hmem with h | h
    · rw [← h, alGet, if_pos rfl]
    · have hp : ¬ p.1 = k := by
        intro he
        exact hnd.1 (he ▸ List.mem_map_of_mem (fun p => p.1) h)
      rw [alGet, if_neg hp]
      exact ih h hnd.2

/-! ## Row-accumulation lemmas -/

lemma stepRow_fst (acc : WeightState) (r : HtmlRow) :
    (stepRow acc r).1 = if (r.quality != "Superior") = true
      then alAdd acc.1 r.name r.weight else acc.1 := by
  by_cases h : (r.quality != "Superior") = true
  · rw [stepRow, if_pos h, if_pos h]
  · rw [stepRow, if_neg h, if_neg h]

lemma stepRow_snd (acc : WeightState) (r : HtmlRow) :
    (stepRow acc r).2 = if (r.quality != "Superior") = true
      then alSet acc.2 r.name
        (alSet ((alGet acc.2 r.name).getD []) r.quality r.weight)
      else acc.2 := by
  by_cases h : (r.quality != "Superior") = true
  · rw [stepRow, if_pos h, if_pos h]
  · rw [stepRow, if_neg h, if_neg h]

/-- After the row loop, the accumulated total for `name` is the initial total
plus the sum of the weights of that item's non-default rows. -/
lemma accumRows_sums (rows : List HtmlRow) :
    ∀ (acc : WeightState) (name : String),
      (alGet (accumRows rows acc).1 name).getD 0
        = (alGet acc.1 name).getD 0
          + ((itemRows rows name).map (fun r => r.weight)).sum := by
  induction rows with
  | nil => intro acc name; simp [accumRows, itemRows]
  | cons r rs ih =>
    intro acc name
    rw [accumRows, ih (stepRow acc r) name, stepRow_fst]
    simp only [itemRows]
    rw [List.filter_cons]
    by_cases hs : (r.quality != "Superior") = true
    · by_cases hn : (r.name == name) = true
      · have hname : r.name = name := beq_iff_eq.mp hn
        subst hname
        rw [if_pos hs, alGet_alAdd_self, Option.getD_some,
          if_pos (Bool.and_eq_true_iff.mpr ⟨hn, hs⟩), List.map_cons,
          List.sum_cons]
        omega
      · have hname : r.name ≠ name := fun he => hn (beq_iff_eq.mpr he)
        rw [if_pos hs, alGet_alAdd_ne _ _ _ _ hname,
          if_neg (fun h => hn (Bool.and_eq_true_iff.mp h).1)]
    · rw [if_neg hs,
        if_neg (fun h => hs (Bool.and_eq_true_iff.mp h).2)]

/-- An item with no non-default rows is never touched in the weight map. -/
lemma accumRows_weights_none (rows : List HtmlRow) :
    ∀ (acc : WeightState) (name : String),
      itemRows rows name = [] →
      alGet (accumRows rows acc).2 name = alGet acc.2 name := by
  induction rows with
  | nil => intro acc name _; rfl
  | cons r rs ih =>
    intro acc name hempty
    rw [itemRows, List.filter_cons] at hempty
    by_cases hc : (r.name == name && r.quality != "Superior") = true
    · rw [if_pos hc] at hempty; cases hempty
    · rw [if_neg hc] at hempty
      rw [accumRows, ih (stepRow acc r) name hempty, stepRow_snd]
      by_cases hs : (r.quality != "Superior") = true
      · have hname : r.name ≠ name := by
          intro he
          exact hc (Bool.and_eq_true_iff.mpr ⟨beq_iff_eq.mpr he, hs⟩)
        rw [if_pos hs]
        exact alGet_alSet_ne _ _ _ _ hname
      · rw [if_neg hs]

/-- After the row loop from any start state in which the item's qualities are
all fresh, the weight-map entry for `name` is the start entry extended by one
`(quality, weight)` pair per non-default row, provided those qualities are
pairwise distinct. -/
lemma accumRows_weights (rows : List HtmlRow) :
    ∀ (acc : WeightState) (name : String),
      ((itemRows rows name).map (fun r => r.quality)).Nodup →
      (∀ r ∈ itemRows rows name,
        alGet ((alGet acc.2 name).getD []) r.quality = none) →
      (alGet (accumRows rows acc).2 name).getD []
        = ((alGet acc.2 name).getD [])
          ++ (itemRows rows name).map (fun r => (r.quality, r.weight)) := by
  induction rows with
  | nil => intro acc name _ _; simp [accumRows, itemRows]
  | cons r rs ih =>
    intro acc name hnd hfresh
    rw [accumRows]
    rw [itemRows, List.filter_cons] at hnd hfresh ⊢
    by_cases hc : (r.name == name && r.quality != "Superior") = true
    · rw [if_pos hc] at hnd hfresh ⊢
      obtain ⟨hn, hs⟩ := Bool.and_eq_true_iff.mp hc
      have hname : r.name = name := beq_iff_eq.mp hn
      have hcur : alGet ((stepRow acc r).2) name
          = some (alSet ((alGet acc.2 name).getD []) r.quality r.weight) := by
        rw [stepRow_snd, if_pos hs, hname, alGet_alSet_self]
      have happ : alSet ((alGet acc.2 name).getD []) r.quality r.weight
          = ((alGet acc.2 name).getD []) ++ [(r.quality, r.weight)] :=
        alSet_of_alGet_none _ _ _ (hfresh r (List.mem_cons_self r _))
      rw [List.map_cons, List.nodup_cons] at hnd
      have hfresh' : ∀ r' ∈ itemRows rs name,
          alGet ((alGet (stepRow acc r).2 name).getD []) r'.quality = none := by
        intro r' hr'
        rw [hcur, Option.getD_some, happ,
          alGet_append_of_none _ _ _ (hfresh r' (List.mem_cons_of_mem r hr'))]
        have hne : ¬ r.quality = r'.quality := by
          intro he
          exact hnd.1 (he ▸ List.mem_map_of_mem (fun r => r.quality) hr')
        rw [alGet, if_neg hne]
        rfl
      have ihres := ih (stepRow acc r) name hnd.2 hfresh'
      rw [ihres, hcur, Option.getD_some, happ, List.map_cons,
        List.append_assoc]
      rfl
    · rw [if_neg hc] at hnd hfresh ⊢
      have hkeep : alGet (stepRow acc r).2 name = alGet acc.2 name := by
        rw [stepRow_snd]
        by_cases hs : (r.quality != "Superior") = true
        · have hname : r.name ≠ name := by
            intro he
            exact hc (Bool.and_eq_true_iff.mpr ⟨beq_iff_eq.mpr he, hs⟩)
          rw [if_pos hs]
          exact alGet_alSet_ne _ _ _ _ hname
        · rw [if_neg hs]
      have hfresh' : ∀ r' ∈ itemRows rs name,
          alGet ((alGet (stepRow acc r).2 name).getD []) r'.quality = none := by
        intro r' hr'
        rw [hkeep]
        exact hfresh r' hr'
      have ihres := ih (stepRow acc r) name hnd hfresh'
      rw [ihres, hkeep]
      rfl

/-- The weight map built from the empty state has pairwise distinct keys. -/
lemma accumRows_weights_nodup (rows : List HtmlRow) :
    ∀ acc : WeightState, (alKeys acc.2).Nodup →
      (alKeys (accumRows rows acc).2).Nodup := by
  induction rows with
  | nil => intro acc h; exact h
  | cons r rs ih =>
    intro acc h
    rw [accumRows]
    refine ih (stepRow acc r) ?_
    rw [stepRow_snd]
    by_cases hs : (r.quality != "Superior") = true
    · rw [if_pos hs]
      exact alKeys_alSet_nodup _ _ _ h
    · rw [if_neg hs]
      exact h

/-! ## Emission lemmas -/

lemma mapM_divWeight_ok (total : Int) (h : total ≠ 0) :
    ∀ w : List (String × Int),
      w.mapM (divWeight total)
        = .ok (w.map (fun qw => (qw.1, (qw.2 : ℚ) / (total : ℚ)))) := by
  intro w
  induction w with
  | nil => rfl
  | cons qw rest ih =>
    rw [List.mapM_cons, divWeight, if_neg h, ih]
    rfl

lemma mapM_divWeight_inv (total : Int) :
    ∀ (w : List (String × Int)) (dist : List (String × ℚ)),
      w.mapM (divWeight total) = .ok dist →
      (w ≠ [] → total ≠ 0)
      ∧ dist = w.map (fun qw => (qw.1, (qw.2 : ℚ) / (total : ℚ))) := by
  intro w
  induction w with
  | nil =>
    intro dist h
    refine ⟨fun hne => absurd rfl hne, ?_⟩
    cases h
    rfl
  | cons qw rest _ =>
    intro dist h
    by_cases h0 : total = 0
    · rw [List.mapM_cons, divWeight, if_pos h0] at h
      cases h
    · rw [mapM_divWeight_ok total h0] at h
      cases h
      exact ⟨fun _ => h0, rfl⟩

lemma emitChances_names (sums : List (String × Int)) :
    ∀ (ws : List (String × List (String × Int))) (cs : GemChances),
      emitChances sums ws = .ok cs →
      cs.map (fun nc => nc.1) = ws.map (fun p => p.1) := by
  intro ws
  induction ws with
  | nil =>
    intro cs h
    cases h
    rfl
  | cons p rest ih =>
    intro cs h
    obtain ⟨name, w⟩ := p
    rw [emitChances] at h
    cases hm : w.mapM (divWeight ((alGet sums name).getD 0)) with
    | error e => rw [hm] at h; cases h
    | ok dist =>
      rw [hm] at h
      cases he : emitChances sums rest with
      | error e => rw [he] at h; cases h
      | ok cs' =>
        rw [he] at h
        cases h
        simp only [List.map_cons]
        rw [ih cs' he]

lemma emitChances_ok (sums : List (String × Int)) :
    ∀ ws : List (String × List (String × Int)),
      (∀ p ∈ ws, (alGet sums p.1).getD 0 ≠ 0) →
      ∃ cs, emitChances sums ws = .ok cs := by
  intro ws
  induction ws with
  | nil => intro _; exact ⟨[], rfl⟩
  | cons p rest ih =>
    intro h
    obtain ⟨name, w⟩ := p
    obtain ⟨cs', hcs'⟩ := ih (fun q hq => h q (List.mem_cons_of_mem _ hq))
    refine ⟨(name, w.map (fun qw =>
      (qw.1, (qw.2 : ℚ) / (((alGet sums name).getD 0 : Int) : ℚ)))) :: cs', ?_⟩
    rw [emitChances,
      mapM_divWeight_ok _ (h (name, w) (List.mem_cons_self _ _)), hcs']

lemma emitChances_mem (sums : List (String × Int)) :
    ∀ (ws : List (String × List (String × Int))) (cs : GemChances),
      emitChances sums ws = .ok cs →
      ∀ nc ∈ cs, ∃ w, (nc.1, w) ∈ ws
        ∧ (w ≠ [] → (alGet sums nc.1).getD 0 ≠ 0)
        ∧ nc.2 = w.map (fun qw =>
            (qw.1, (qw.2 : ℚ) / (((alGet sums nc.1).getD 0 : Int) : ℚ))) := by
  intro ws
  induction ws with
  | nil =>
    intro cs h
    cases h
    intro nc hnc
    cases hnc
  | cons p rest ih =>
    intro cs h nc hnc
    obtain ⟨name, w⟩ := p
    rw [emitChances] at h
    cases hm : w.mapM (divWeight ((alGet sums name).getD 0)) with
    | error e => rw [hm] at h; cases h
    | ok dist =>
      rw [hm] at h
      cases he : emitChances sums rest with
      | error e => rw [he] at h; cases h
      | ok cs' =>
        rw [he] at h
        cases h
        rcases List.mem_cons.mp hnc with hh | hh
        · subst hh
          obtain ⟨hz, hd⟩ := mapM_divWeight_inv _ w dist hm
          exact ⟨w, List.mem_cons_self _ _, hz, hd⟩
        · obtain ⟨w', hw1, hw2, hw3⟩ := ih cs' he nc hh
          exact ⟨w', List.mem_cons_of_mem _ hw1, hw2, hw3⟩

/-- On a well-formed document the parser is the emission of the accumulated
state. -/
lemma parse_eq_of_docRows (doc : HtmlDoc) (rows : List HtmlRow)
    (h : docRows doc = some rows) :
    parse_poedb_gem_data doc
      = emitChances (accumRows rows ([], [])).1 (accumRows rows ([], [])).2 := by
  match doc with
  | ⟨none⟩ => simp [docRows] at h
  | ⟨some ⟨none⟩⟩ => simp [docRows] at h
  | ⟨some ⟨some ⟨none⟩⟩⟩ => simp [docRows] at h
  | ⟨some ⟨some ⟨some rows'⟩⟩⟩ =>
    simp only [docRows, Option.some.injEq] at h
    subst h
    rfl

lemma name_mem_of_itemRows_ne (rows : List HtmlRow) (name : String)
    (h : itemRows rows name ≠ []) : name ∈ rows.map (fun r => r.name) := by
  obtain ⟨r, hr⟩ := List.exists_mem_of_ne_nil _ h
  have hmem := List.mem_filter.mp hr
  have hname : r.name = name :=
    beq_iff_eq.mp (Bool.and_eq_true_iff.mp hmem.2).1
  exact hname ▸ List.mem_map_of_mem (fun r => r.name) hmem.1

lemma int_cast_weight_sum (l : List HtmlRow) :
    (l.map (fun r => ((r.weight : Int) : ℚ))).sum
      = (((l.map (fun r => r.weight)).sum : Int) : ℚ) := by
  induction l with
  | nil => simp
  | cons r rs ih => simp [ih]

lemma sum_snd_map_div (l : List HtmlRow) (T : ℚ) :
    (((l.map (fun r => (r.quality, r.weight))).map
        (fun qw => (qw.1, (qw.2 : ℚ) / T))).map (fun qw => qw.2)).sum
      = (l.map (fun r => ((r.weight : Int) : ℚ))).sum / T := by
  induction l with
  | nil => simp
  | cons r rs ih => simp only [List.map_cons, List.sum_cons, ih, add_div]

/-! ## Parser documents used by counterexamples and witnesses -/

/-- A document whose item "A" has the same non-default row twice: the dict
entry is overwritten while the running total counts both rows. -/
def dupDoc : HtmlDoc :=
  ⟨some ⟨some ⟨some [⟨"A", "Anomalous", 1⟩, ⟨"A", "Anomalous", 1⟩]⟩⟩⟩

/-- A document whose item "A" has a single non-default row of weight 0, so the
per-item total weight is 0. -/
def zeroDoc : HtmlDoc := ⟨some ⟨some ⟨some [⟨"A", "Anomalous", 0⟩]⟩⟩⟩

/-- A well-formed document giving Fireball two equal-weight outcomes. -/
def fireDoc : HtmlDoc :=
  ⟨some ⟨some ⟨some [⟨"Fireball", "Anomalous", 1⟩,
    ⟨"Fireball", "Divergent", 1⟩]⟩⟩⟩

/-- C4 counterexample: on `dupDoc` the parser succeeds but the emitted
probabilities of item "A" sum to 1/2, not 1, because the duplicated row is
counted twice in the total yet stored once in the weight dict. -/
theorem chances_sum_counterexample :
    ∃ cs : GemChances, parse_poedb_gem_data dupDoc = .ok cs
      ∧ ∃ nc ∈ cs, (nc.2.map (fun qw => qw.2)).sum ≠ 1 := by
  have h : parse_poedb_gem_data dupDoc = .ok [("A", [("Anomalous", (1:ℚ)/2)])] := by
    norm_num [parse_poedb_gem_data, dupDoc, accumRows, stepRow, alAdd, alSet,
      alGet, emitChances, divWeight, List.mapM, List.mapM.loop]
  refine ⟨_, h, ("A", [("Anomalous", (1:ℚ)/2)]), List.mem_singleton_self _, ?_⟩
  norm_num

/-- C4 (amended): on a well-formed document in which no item repeats a
non-default quality row, every emitted distribution's probabilities sum to
exactly 1, each probability being the row's weight divided by the item's total
non-default weight. -/
theorem chances_sum_one (doc : HtmlDoc) (rows : List HtmlRow) (cs : GemChances)
    (hdoc : docRows doc = some rows)
    (hnodup : ∀ name ∈ rows.map (fun r => r.name),
      ((itemRows rows name).map (fun r => r.quality)).Nodup)
    (hok : parse_poedb_gem_data doc = .ok cs) :
    ∀ nc ∈ cs, (nc.2.map (fun qw => qw.2)).sum = 1 := by
  intro nc hnc
  rw [parse_eq_of_docRows doc rows hdoc] at hok
  obtain ⟨w, hwmem, hwz, hwval⟩ :=
    emitChances_mem (accumRows rows ([], [])).1 (accumRows rows ([], [])).2
      cs hok nc hnc
  have hknd : (alKeys (accumRows rows ([], [])).2).Nodup :=
    accumRows_weights_nodup rows ([], []) List.nodup_nil
  have hwget : alGet (accumRows rows ([], [])).2 nc.1 = some w :=
    alGet_of_mem_nodup _ _ _ hwmem hknd
  have hitem : itemRows rows nc.1 ≠ [] := by
    intro hempty
    rw [accumRows_weights_none rows ([], []) nc.1 hempty] at hwget
    cases hwget
  have hmemname : nc.1 ∈ rows.map (fun r => r.name) :=
    name_mem_of_itemRows_ne rows nc.1 hitem
  have hw : w = (itemRows rows nc.1).map (fun r => (r.quality, r.weight)) := by
    have h2 := accumRows_weights rows ([], []) nc.1 (hnodup nc.1 hmemname)
      (fun r _ => rfl)
    rw [hwget] at h2
    simpa [alGet] using h2
  have htot : (alGet (accumRows rows ([], [])).1 nc.1).getD 0
      = ((itemRows rows nc.1).map (fun r => r.weight)).sum := by
    have h3 := accumRows_sums rows ([], []) nc.1
    simpa [alGet] using h3
  have hwne : w ≠ [] := by
    rw [hw]
    intro hmapnil
    exact hitem (List.map_eq_nil_iff.mp hmapnil)
  have htotnz : (alGet (accumRows rows ([], [])).1 nc.1).getD 0 ≠ 0 := hwz hwne
  rw [hwval, hw, sum_snd_map_div, int_cast_weight_sum, ← htot]
  exact div_self (Int.cast_ne_zero.mpr htotnz)

/-- Witness for C4 on the Fireball document: the emitted Fireball distribution
sums to 1. -/
theorem chances_sum_one_witness :
    (([("Anomalous", (1:ℚ)/2), ("Divergent", (1:ℚ)/2)] :
        List (String × ℚ)).map (fun qw => qw.2)).sum = 1 := by
  have hok : parse_poedb_gem_data fireDoc
      = .ok [("Fireball", [("Anomalous", (1:ℚ)/2), ("Divergent", (1:ℚ)/2)])] := by
    norm_num [parse_poedb_gem_data, fireDoc, accumRows, stepRow, alAdd, alSet,
      alGet, emitChances, divWeight, List.mapM, List.mapM.loop]
    rfl
  exact chances_sum_one fireDoc
    [⟨"Fireball", "Anomalous", 1⟩, ⟨"Fireball", "Divergent", 1⟩] _ rfl
    (by decide) hok
    ("Fireball", [("Anomalous", (1:ℚ)/2), ("Divergent", (1:ℚ)/2)])
    (List.mem_singleton_self _)

/-- C6 counterexample: a document with one non-default row of weight 0 makes
the parser divide by the zero per-item total, raising the division error, so
the "never attempts a division by a zero total, including weight-0 rows" part
of the claim is false. -/
theorem division_by_zero_counterexample :
    parse_poedb_gem_data zeroDoc = .error .divisionByZero := by rfl

/-- C6 (amended): an item whose rows are all default-tag rows is never added
to the weight map and is absent from the parser output, and the parser never
divides by an absent per-item total: it succeeds whenever every item that has
non-default rows has nonzero total weight. (A zero total, reachable only via
weight-0 non-default rows, instead raises a division-by-zero error.) -/
theorem parser_default_only_never_divided :
    (∀ (doc : HtmlDoc) (rows : List HtmlRow) (cs : GemChances) (name : String),
      docRows doc = some rows → parse_poedb_gem_data doc = .ok cs →
      itemRows rows name = [] → name ∉ cs.map (fun nc => nc.1))
    ∧ (∀ (doc : HtmlDoc) (rows : List HtmlRow),
      docRows doc = some rows →
      (∀ name ∈ rows.map (fun r => r.name), itemRows rows name ≠ [] →
        ((itemRows rows name).map (fun r => r.weight)).sum ≠ 0) →
      ∃ cs, parse_poedb_gem_data doc = .ok cs) := by
  constructor
  · intro doc rows cs name hdoc hok hempty hmem
    rw [parse_eq_of_docRows doc rows hdoc] at hok
    rw [emitChances_names _ _ cs hok] at hmem
    have hnone : alGet (accumRows rows ([], [])).2 name = none := by
      rw [accumRows_weights_none rows ([], []) name hempty]
      rfl
    rcases List.mem_map.mp hmem with ⟨p, hp, hp1⟩
    exact (alGet_eq_none_iff _ _).mp hnone p hp hp1
  · intro doc rows hdoc hnz
    rw [parse_eq_of_docRows doc rows hdoc]
    apply emitChances_ok
    intro p hp
    have hpkey : alGet (accumRows rows ([], [])).2 p.1 ≠ none := fun hn =>
      (alGet_eq_none_iff _ _).mp hn p hp rfl
    have hitem : itemRows rows p.1 ≠ [] := by
      intro hempty
      exact hpkey (by rw [accumRows_weights_none rows ([], []) p.1 hempty]; rfl)
    have htot : (alGet (accumRows rows ([], [])).1 p.1).getD 0
        = ((itemRows rows p.1).map (fun r => r.weight)).sum := by
      have h3 := accumRows_sums rows ([], []) p.1
      simpa [alGet] using h3
    rw [htot]
    exact hnz p.1 (name_mem_of_itemRows_ne rows p.1 hitem) hitem

/-- Witness for C6: the Fireball document (nonzero totals) parses
successfully. -/
theorem parser_default_only_never_divided_witness :
    ∃ cs, parse_poedb_gem_data fireDoc = .ok cs :=
  parser_default_only_never_divided.2 fireDoc
    [⟨"Fireball", "Anomalous", 1⟩, ⟨"Fireball", "Divergent", 1⟩] rfl (by decide)

end GemScams
